import Mathlib

/-!
Verification of the traversal engine of `jv/tree-algorithms.hpp`.

The repository stores a tree as a flat, preorder sequence of entries; each
entry reports its number of immediate children through a caller-supplied
Child-Count Oracle (`getChildrenCount`).  We embed handles as `Nat` indices
into that sequence and the oracle as a function `cc : Nat → Nat`.  Whether a
stretch of the sequence is a well-formed flattened tree is expressed against
an inductive `Tree`/`Forest` model: `Tree.flatAt cc p t` says the oracle's
counts starting at position `p` are exactly the preorder child-count listing
of `t`.  The loops of the C++ code are embedded with an explicit fuel
argument returning `Option` (`none` = the loop did not finish within `fuel`
iterations), keeping every definition structurally recursive and hence
executable by the kernel.
-/

set_option maxRecDepth 8000

namespace TreeAlgorithms

mutual

/-- A rose tree; the payloads of the C++ entries are irrelevant to the
traversal engine, only the shape (child counts) matters. -/
inductive Tree : Type where
  | node : Forest → Tree
  deriving DecidableEq

/-- A list of sibling trees. -/
inductive Forest : Type where
  | nil : Forest
  | cons : Tree → Forest → Forest
  deriving DecidableEq

end

mutual

/-- Number of entries a tree occupies in the flattened preorder sequence. -/
def Tree.size : Tree → Nat
  | .node g => 1 + Forest.size g

/-- Total number of entries of a forest in the flattened sequence. -/
def Forest.size : Forest → Nat
  | .nil => 0
  | .cons t g => Tree.size t + Forest.size g

end

/-- Number of trees in a forest (the child count of their parent). -/
def Forest.length : Forest → Nat
  | .nil => 0
  | .cons _ g => Forest.length g + 1

/-- Concatenation of forests. -/
def Forest.append : Forest → Forest → Forest
  | .nil, g2 => g2
  | .cons t g, g2 => .cons t (Forest.append g g2)

/-- The children forest of a tree. -/
def Tree.children : Tree → Forest
  | .node g => g

mutual

/-- The oracle `cc` describes tree `t` flattened at position `p`: entry `p`
reports `t`'s child count and the children follow recursively from `p+1`. -/
def Tree.flatAt (cc : Nat → Nat) : Nat → Tree → Bool
  | p, .node g => (cc p == Forest.length g) && Forest.flatAt cc (p + 1) g

/-- The oracle `cc` describes forest `g` flattened contiguously from `p`. -/
def Forest.flatAt (cc : Nat → Nat) : Nat → Forest → Bool
  | _, .nil => true
  | p, .cons t g => Tree.flatAt cc p t && Forest.flatAt cc (p + Tree.size t) g

end

/-- Loop body of `NodeTraits::getNextSibling`: the C++ `do { remaining_nodes
= remaining_nodes + getChildrenCount(node) - 1; ++node; } while
(remaining_nodes > 0);` with `pending` the `remaining_nodes` counter (a
`size_t`; it is `≥ 1` whenever the body runs, so `Nat` subtraction is
exact), and `fuel` bounding the number of iterations (`none` = not yet
finished after `fuel` iterations). -/
def getNextSiblingLoop (cc : Nat → Nat) : Nat → Nat → Nat → Option Nat
  | 0, _, _ => none
  | fuel + 1, node, pending =>
    let pending2 := pending + cc node - 1
    let node2 := node + 1
    if pending2 > 0 then getNextSiblingLoop cc fuel node2 pending2
    else some node2

/-- `NodeTraits::getNextSibling`: skip over the whole subtree rooted at
`node`, starting the loop with `remaining_nodes = 1`. -/
def getNextSibling (cc : Nat → Nat) (fuel node : Nat) : Option Nat :=
  getNextSiblingLoop cc fuel node 1

/-- The `for (; nb_children != 0; --nb_children) node = func(node, func);`
loop shared by all traversals: iterate the callback `step` a given number of
times, threading the handle and the callback's captured state `s` explicitly
(the C++ callbacks mutate captured locals; we pass that state along).  A
`none` from the callback (its fuel ran out) aborts the loop. -/
def iterSteps {S : Type} (step : Nat → S → Option (Nat × S)) :
    Nat → Nat → S → Option (Nat × S)
  | 0, node, s => some (node, s)
  | n + 1, node, s =>
    match step node s with
    | none => none
    | some (node2, s2) => iterSteps step n node2 s2

/-- `NodeTraits::recursiveTraversal`: read the child count, step past the
node itself, then invoke the callback once per child, each invocation
returning the handle where the next one starts. -/
def recursiveTraversal {S : Type} (cc : Nat → Nat)
    (func : Nat → S → Option (Nat × S)) (node : Nat) (s : S) :
    Option (Nat × S) :=
  iterSteps func (cc node) (node + 1) s

/-- The lambda of `NodeTraits::evaluationTraversal` (its `self`-recursion
bounded by `fuel`): remember `begin_index = values.size()`, recursively
evaluate the node's children (which append their values to the buffer),
apply the evaluator `func` to the window `values[begin_index..]`, then
`values.resize(begin_index); values.emplace_back(ret)`. -/
def evalNode {V : Type} (cc : Nat → Nat) (func : Nat → List V → V) :
    Nat → Nat → List V → Option (Nat × List V)
  | 0, _, _ => none
  | fuel + 1, node, values =>
    match recursiveTraversal cc (evalNode cc func fuel) node values with
    | none => none
    | some (next, values2) =>
      some (next, values2.take values.length
        ++ [func node (values2.drop values.length)])

/-- `NodeTraits::evaluationTraversal`: run the lambda over the root's
children starting from an empty value buffer, then return
`{func(root, values.data(), values.data() + values.size()), next}`. -/
def evaluationTraversal {V : Type} (cc : Nat → Nat)
    (func : Nat → List V → V) (fuel root : Nat) : Option (V × Nat) :=
  match recursiveTraversal cc (evalNode cc func fuel) root [] with
  | none => none
  | some (next, values) => some (func root values, next)

/-- The contents of the `values` buffer of `evaluationTraversal` at the
moment the final `func(root, …)` call runs — equivalently, at the moment the
function returns and the buffer is destroyed (the same run as
`evaluationTraversal`, observing the buffer instead of the result). -/
def evaluationTraversalFinalBuf {V : Type} (cc : Nat → Nat)
    (func : Nat → List V → V) (fuel root : Nat) : Option (List V) :=
  match recursiveTraversal cc (evalNode cc func fuel) root [] with
  | none => none
  | some (_, values) => some values

/-- The lambda of `NodeTraits::ancestorsTraversal` (its `self`-recursion
bounded by `fuel`).  State: the `ancestors` vector together with the record
of the views `func` has been invoked on, in invocation order (the visitor is
abstracted as a pure observer, so this record carries all the information
the visitor ever receives).  The lambda pushes the node, invokes `func` on
the current stack, recurses into the children, then pops. -/
def ancNode (cc : Nat → Nat) :
    Nat → Nat → List Nat × List (List Nat) →
    Option (Nat × (List Nat × List (List Nat)))
  | 0, _, _ => none
  | fuel + 1, node, (ancestors, calls) =>
    let ancestors2 := ancestors ++ [node]
    let calls2 := calls ++ [ancestors2]
    match recursiveTraversal cc (ancNode cc fuel) node (ancestors2, calls2) with
    | none => none
    | some (next, (ancestors3, calls3)) =>
      some (next, (ancestors3.dropLast, calls3))

/-- `NodeTraits::ancestorsTraversal`: push the root, invoke `func` on the
one-element stack, then traverse the root's children with the lambda.
Returns the final handle together with the record of visitor invocations. -/
def ancestorsTraversal (cc : Nat → Nat) (fuel root : Nat) :
    Option (Nat × List (List Nat)) :=
  match recursiveTraversal cc (ancNode cc fuel) root ([root], [[root]]) with
  | none => none
  | some (next, (_, calls)) => some (next, calls)

end TreeAlgorithms

namespace TreeAlgorithms

mutual

/-- Specification-level value of the tree flattened at `p`: the evaluator
applied to the node's handle and its children's values, left to right. -/
def Tree.evalAt {V : Type} (func : Nat → List V → V) : Nat → Tree → V
  | p, .node g => func p (Forest.evalsAt func (p + 1) g)

/-- Specification-level values of the trees of a forest flattened from `p`. -/
def Forest.evalsAt {V : Type} (func : Nat → List V → V) :
    Nat → Forest → List V
  | _, .nil => []
  | p, .cons t g => Tree.evalAt func p t :: Forest.evalsAt func (p + Tree.size t) g

end

mutual

/-- All (position, subtree) pairs of the tree flattened at `p`, in preorder. -/
def Tree.nodesAt : Nat → Tree → List (Nat × Tree)
  | p, .node g => (p, .node g) :: Forest.nodesAt (p + 1) g

/-- All (position, subtree) pairs of a forest flattened from `p`, preorder. -/
def Forest.nodesAt : Nat → Forest → List (Nat × Tree)
  | _, .nil => []
  | p, .cons t g => Tree.nodesAt p t ++ Forest.nodesAt (p + Tree.size t) g

end

/-- Positions of the roots of a forest's trees flattened from `p` (the
positions of a node's immediate children when the forest is its children). -/
def Forest.positions : Nat → Forest → List Nat
  | _, .nil => []
  | p, .cons t g => p :: Forest.positions (p + Tree.size t) g

mutual

/-- Ancestor-stack snapshots of a preorder walk of the tree flattened at
`p`, when the stack already holds `anc`: the snapshot at each node is the
root-first chain of its ancestors ending with the node itself. -/
def Tree.paths : List Nat → Nat → Tree → List (List Nat)
  | anc, p, .node g => (anc ++ [p]) :: Forest.paths (anc ++ [p]) (p + 1) g

/-- Ancestor-stack snapshots over a forest flattened from `p`. -/
def Forest.paths : List Nat → Nat → Forest → List (List Nat)
  | _, _, .nil => []
  | anc, p, .cons t g => Tree.paths anc p t ++ Forest.paths anc (p + Tree.size t) g

end

mutual

/-- Depth of each node of a tree in preorder, the root having depth `d`. -/
def Tree.depthList : Nat → Tree → List Nat
  | d, .node g => d :: Forest.depthList (d + 1) g

/-- Depths over a forest, roots at depth `d`. -/
def Forest.depthList : Nat → Forest → List Nat
  | _, .nil => []
  | d, .cons t g => Tree.depthList d t ++ Forest.depthList d g

end

/-- Child counts of the test fixture `entries` of `tests/tree-algorithms.cpp`:
`Directory("TreeAlgorithms",3){File 100, Directory("src",2){Directory("jv",1){File 800}, File 400}, File 200}`. -/
def fixtureCounts : List Nat := [3, 0, 2, 1, 0, 0, 0]

/-- The Child-Count Oracle of the fixture (`EntryTraits::getChildrenCount`). -/
def fixtureCC : Nat → Nat := fun i => fixtureCounts.getD i 0

/-- A leaf entry (a `File`: child count 0). -/
def leaf : Tree := Tree.node Forest.nil

/-- The fixture tree as an inductive tree. -/
def fixtureTree : Tree :=
  Tree.node (Forest.cons leaf
    (Forest.cons (Tree.node (Forest.cons (Tree.node (Forest.cons leaf Forest.nil))
      (Forest.cons leaf Forest.nil)))
    (Forest.cons leaf Forest.nil)))

/-- Which fixture entries are `Directory` variants. -/
def fixtureIsDirectory : Nat → Bool :=
  fun i => [true, false, true, true, false, false, false].getD i false

/-- The `size` field of the fixture's `File` entries (0 for directories). -/
def fixtureFileSize : Nat → Nat :=
  fun i => [0, 100, 0, 0, 800, 400, 200].getD i 0

/-- The evaluator of the `evaluationTraversal` test case: a `File`
contributes its size, a `Directory` accumulates its children's values. -/
def fixtureEvalN : Nat → List Nat → Nat := fun node w =>
  if fixtureIsDirectory node then w.sum else fixtureFileSize node

example : fixtureTree.size = 7 := rfl
example : Tree.flatAt fixtureCC 0 fixtureTree = true := rfl
example : getNextSibling fixtureCC 7 0 = some 7 := rfl
example : getNextSibling fixtureCC 6 0 = none := rfl
example : getNextSibling fixtureCC 7 1 = some 2 := rfl
example : getNextSibling fixtureCC 7 2 = some 6 := rfl
example : evaluationTraversal fixtureCC fixtureEvalN 7 0 = some (1500, 7) := rfl
example : evaluationTraversalFinalBuf fixtureCC fixtureEvalN 7 0
    = some [100, 1200, 200] := rfl
example : ancestorsTraversal fixtureCC 7 0
    = some (7, [[0], [0, 1], [0, 2], [0, 2, 3], [0, 2, 3, 4], [0, 2, 5], [0, 6]]) := rfl
example : Tree.paths [] 0 fixtureTree
    = [[0], [0, 1], [0, 2], [0, 2, 3], [0, 2, 3, 4], [0, 2, 5], [0, 6]] := rfl
example : Tree.evalAt fixtureEvalN 0 fixtureTree = 1500 := rfl
example : Tree.depthList 1 fixtureTree = [1, 2, 2, 3, 4, 3, 2] := rfl

/-- Every tree occupies at least one entry. -/
theorem Tree.size_pos : ∀ t : Tree, 1 ≤ Tree.size t
  | .node g => by simp [Tree.size]

/-- A forest has at least as many entries as trees. -/
theorem Forest.length_le_size : ∀ g : Forest, Forest.length g ≤ Forest.size g
  | .nil => by simp [Forest.length, Forest.size]
  | .cons t g => by
    have h1 := Tree.size_pos t
    have h2 := Forest.length_le_size g
    simp only [Forest.length, Forest.size]
    omega

/-- A forest with no trees is `nil`. -/
theorem Forest.length_eq_zero : ∀ g : Forest, Forest.length g = 0 → g = Forest.nil
  | .nil, _ => rfl
  | .cons _ _, h => by simp [Forest.length] at h

/-- Entry count of a concatenation of forests. -/
theorem Forest.size_append : ∀ g1 g2 : Forest,
    Forest.size (Forest.append g1 g2) = Forest.size g1 + Forest.size g2
  | .nil, _ => by simp [Forest.append, Forest.size]
  | .cons t g, g2 => by
    have ih := Forest.size_append g g2
    simp only [Forest.append, Forest.size]
    omega

/-- Tree count of a concatenation of forests. -/
theorem Forest.length_append : ∀ g1 g2 : Forest,
    Forest.length (Forest.append g1 g2) = Forest.length g1 + Forest.length g2
  | .nil, _ => by simp [Forest.append, Forest.length]
  | .cons t g, g2 => by
    have ih := Forest.length_append g g2
    simp only [Forest.append, Forest.length]
    omega

/-- Flattenedness of a concatenation: the first forest from `p`, the second
right after it. -/
theorem Forest.flatAt_append (cc : Nat → Nat) : ∀ (g1 g2 : Forest) (p : Nat),
    Forest.flatAt cc p (Forest.append g1 g2)
      = (Forest.flatAt cc p g1 && Forest.flatAt cc (p + Forest.size g1) g2)
  | .nil, g2, p => by simp [Forest.append, Forest.flatAt, Forest.size]
  | .cons t g, g2, p => by
    have ih := Forest.flatAt_append cc g g2 (p + Tree.size t)
    simp only [Forest.append, Forest.flatAt, Forest.size, ih, Bool.and_assoc]
    have : p + Tree.size t + Forest.size g = p + (Tree.size t + Forest.size g) := by
      omega
    rw [this]

/-- Main loop invariant of `getNextSibling`: started on a flattened forest
`g` with `pending = Forest.length g > 0` trees owed, the loop consumes
exactly the `Forest.size g` entries of the forest and stops right after
them, provided the fuel covers that many iterations. -/
theorem getNextSiblingLoop_flat (cc : Nat → Nat) :
    ∀ (fuel : Nat) (g : Forest) (p : Nat),
      Forest.flatAt cc p g = true → 0 < Forest.length g →
      Forest.size g ≤ fuel →
      getNextSiblingLoop cc fuel p (Forest.length g) = some (p + Forest.size g) := by
  intro fuel
  induction fuel with
  | zero =>
    intro g p _ hlen hsz
    have := Forest.length_le_size g
    omega
  | succ fu ih =>
    intro g p hflat hlen hsz
    match g with
    | .nil => simp [Forest.length] at hlen
    | .cons (.node h) g2 =>
      simp only [Forest.flatAt, Tree.flatAt, Bool.and_eq_true, beq_iff_eq] at hflat
      obtain ⟨⟨hcc, hh⟩, hg2⟩ := hflat
      have hszh : Tree.size (Tree.node h) = 1 + Forest.size h := rfl
      rw [hszh] at hg2
      simp only [Forest.size, Tree.size] at hsz
      simp only [getNextSiblingLoop, Forest.length]
      have hp2 : Forest.length g2 + 1 + cc p - 1
          = Forest.length (Forest.append h g2) := by
        rw [Forest.length_append, hcc]; omega
      rw [hp2]
      have hflat2 : Forest.flatAt cc (p + 1) (Forest.append h g2) = true := by
        rw [Forest.flatAt_append, Bool.and_eq_true]
        refine ⟨hh, ?_⟩
        have : p + 1 + Forest.size h = p + (1 + Forest.size h) := by omega
        rw [this]; exact hg2
      by_cases hz : Forest.length (Forest.append h g2) > 0
      · rw [if_pos hz]
        have hrec := ih (Forest.append h g2) (p + 1) hflat2 hz (by
          rw [Forest.size_append]
          omega)
        rw [hrec]
        have : p + 1 + Forest.size (Forest.append h g2)
            = p + Forest.size (Forest.cons (Tree.node h) g2) := by
          rw [Forest.size_append]
          simp only [Forest.size, hszh]
          omega
        rw [this]
      · rw [if_neg hz]
        have hlen0 : Forest.length (Forest.append h g2) = 0 := by omega
        rw [Forest.length_append] at hlen0
        have hhnil : h = Forest.nil := Forest.length_eq_zero h (by omega)
        have hg2nil : g2 = Forest.nil := Forest.length_eq_zero g2 (by omega)
        subst hhnil; subst hg2nil
        simp [Forest.size, Tree.size]

/-- Lower bound on the loop's iteration count: with fuel below the forest's
entry count the loop has not yet finished. -/
theorem getNextSiblingLoop_flat_none (cc : Nat → Nat) :
    ∀ (fuel : Nat) (g : Forest) (p : Nat),
      Forest.flatAt cc p g = true → 0 < Forest.length g →
      fuel < Forest.size g →
      getNextSiblingLoop cc fuel p (Forest.length g) = none := by
  intro fuel
  induction fuel with
  | zero => intro g p _ _ _; rfl
  | succ fu ih =>
    intro g p hflat hlen hsz
    match g with
    | .nil => simp [Forest.length] at hlen
    | .cons (.node h) g2 =>
      simp only [Forest.flatAt, Tree.flatAt, Bool.and_eq_true, beq_iff_eq] at hflat
      obtain ⟨⟨hcc, hh⟩, hg2⟩ := hflat
      have hszh : Tree.size (Tree.node h) = 1 + Forest.size h := rfl
      rw [hszh] at hg2
      simp only [Forest.size, hszh] at hsz
      simp only [getNextSiblingLoop, Forest.length]
      have hp2 : Forest.length g2 + 1 + cc p - 1
          = Forest.length (Forest.append h g2) := by
        rw [Forest.length_append, hcc]; omega
      rw [hp2]
      have hflat2 : Forest.flatAt cc (p + 1) (Forest.append h g2) = true := by
        rw [Forest.flatAt_append, Bool.and_eq_true]
        refine ⟨hh, ?_⟩
        have : p + 1 + Forest.size h = p + (1 + Forest.size h) := by omega
        rw [this]; exact hg2
      have hz : Forest.length (Forest.append h g2) > 0 := by
        by_contra hz
        have hlen0 : Forest.length (Forest.append h g2) = 0 := by omega
        rw [Forest.length_append] at hlen0
        have hhnil : h = Forest.nil := Forest.length_eq_zero h (by omega)
        have hg2nil : g2 = Forest.nil := Forest.length_eq_zero g2 (by omega)
        subst hhnil; subst hg2nil
        simp [Forest.size] at hsz
      rw [if_pos hz]
      exact ih (Forest.append h g2) (p + 1) hflat2 hz (by
        rw [Forest.size_append]; omega)

/-- On a tree flattened at `p` with enough fuel, `getNextSibling` lands
exactly one past the subtree. -/
theorem getNextSibling_flat (cc : Nat → Nat) (fuel p : Nat) (t : Tree)
    (hflat : Tree.flatAt cc p t = true) (hfu : Tree.size t ≤ fuel) :
    getNextSibling cc fuel p = some (p + Tree.size t) := by
  have h1 : Forest.flatAt cc p (Forest.cons t Forest.nil) = true := by
    simp [Forest.flatAt, hflat]
  have h2 := getNextSiblingLoop_flat cc fuel (Forest.cons t Forest.nil) p h1
    (by simp [Forest.length]) (by simp [Forest.size]; omega)
  simpa [getNextSibling, Forest.length, Forest.size] using h2

/-- With fuel below the subtree's entry count, `getNextSibling` has not yet
finished. -/
theorem getNextSibling_flat_none (cc : Nat → Nat) (fuel p : Nat) (t : Tree)
    (hflat : Tree.flatAt cc p t = true) (hfu : fuel < Tree.size t) :
    getNextSibling cc fuel p = none := by
  have h1 : Forest.flatAt cc p (Forest.cons t Forest.nil) = true := by
    simp [Forest.flatAt, hflat]
  have h2 := getNextSiblingLoop_flat_none cc fuel (Forest.cons t Forest.nil) p h1
    (by simp [Forest.length]) (by simp [Forest.size]; omega)
  simpa [getNextSibling, Forest.length] using h2

/-- The loop only moves forward: a successful run ends strictly past its
starting handle. -/
theorem getNextSiblingLoop_lt (cc : Nat → Nat) :
    ∀ (fuel p pending m : Nat),
      getNextSiblingLoop cc fuel p pending = some m → p < m := by
  intro fuel
  induction fuel with
  | zero => intro p pending m h; simp [getNextSiblingLoop] at h
  | succ fu ih =>
    intro p pending m h
    simp only [getNextSiblingLoop] at h
    by_cases hz : pending + cc p - 1 > 0
    · rw [if_pos hz] at h
      have := ih (p + 1) (pending + cc p - 1) m h
      omega
    · rw [if_neg hz] at h
      have : p + 1 = m := by simpa using h
      omega

/-- The loop consults the oracle only at handles in `[p, m)`: any oracle
agreeing there produces the same run. -/
theorem getNextSiblingLoop_agree (cc1 cc2 : Nat → Nat) :
    ∀ (fuel p pending m : Nat),
      getNextSiblingLoop cc1 fuel p pending = some m →
      (∀ i, p ≤ i → i < m → cc1 i = cc2 i) →
      getNextSiblingLoop cc2 fuel p pending = some m := by
  intro fuel
  induction fuel with
  | zero => intro p pending m h _; simp [getNextSiblingLoop] at h
  | succ fu ih =>
    intro p pending m h hagree
    have hpm : p < m := getNextSiblingLoop_lt cc1 (fu + 1) p pending m h
    have hccp : cc2 p = cc1 p := (hagree p (Nat.le_refl p) hpm).symm
    simp only [getNextSiblingLoop] at h ⊢
    rw [hccp]
    by_cases hz : pending + cc1 p - 1 > 0
    · rw [if_pos hz] at h ⊢
      exact ih (p + 1) (pending + cc1 p - 1) m h (fun i h1 h2 => hagree i (by omega) h2)
    · rw [if_neg hz] at h ⊢
      exact h

/-- The canonical recursive visitor of `recursiveTraversal` for claim C2:
`func(node, self)` returns `g node`, and the state logs each handle the
callback was invoked on, in invocation order. -/
def pureStep (g : Nat → Nat) : Nat → List Nat → Option (Nat × List Nat) :=
  fun node calls => some (g node, calls ++ [node])

/-- The callback `g` consumes each tree of the forest: on a tree's root
handle it returns the handle right past that tree's entries. -/
def consumesForest (g : Nat → Nat) : Nat → Forest → Bool
  | _, .nil => true
  | p, .cons t fr => (g p == p + Tree.size t) && consumesForest g (p + Tree.size t) fr

/-- A run of the `recursiveTraversal` loop with a callback that consumes
each child's subtree: the callback is invoked exactly on the forest's root
positions, in order, and the loop ends right past the forest. -/
theorem iterSteps_pureStep (g : Nat → Nat) :
    ∀ (fr : Forest) (p : Nat) (calls : List Nat),
      consumesForest g p fr = true →
      iterSteps (pureStep g) (Forest.length fr) p calls
        = some (p + Forest.size fr, calls ++ Forest.positions p fr)
  | .nil, p, calls, _ => by
    simp [iterSteps, Forest.length, Forest.size, Forest.positions]
  | .cons t fr, p, calls, h => by
    simp only [consumesForest, Bool.and_eq_true, beq_iff_eq] at h
    obtain ⟨h1, h2⟩ := h
    have ih := iterSteps_pureStep g fr (p + Tree.size t) (calls ++ [p]) h2
    simp only [Forest.length, iterSteps, pureStep, Forest.size, Forest.positions]
    rw [h1, ih]
    simp [List.append_assoc, Nat.add_assoc]

/-- A forest has one root position per tree. -/
theorem Forest.positions_length : ∀ (fr : Forest) (p : Nat),
    (Forest.positions p fr).length = Forest.length fr
  | .nil, _ => rfl
  | .cons t fr, p => by
    have ih := Forest.positions_length fr (p + Tree.size t)
    simp [Forest.positions, Forest.length, ih]

mutual

/-- Central correctness lemma of the Evaluation Fold, node form: on a tree
flattened at `p` with enough fuel, the lambda ends right past the subtree
and its net effect on the buffer is appending exactly the node's
specification-level value. -/
theorem evalNode_flat {V : Type} (cc : Nat → Nat) (func : Nat → List V → V) :
    ∀ (t : Tree) (p fuel : Nat) (buf : List V),
      Tree.flatAt cc p t = true → Tree.size t ≤ fuel →
      evalNode cc func fuel p buf
        = some (p + Tree.size t, buf ++ [Tree.evalAt func p t])
  | .node g, p, fuel, buf => by
    intro hflat hfu
    simp only [Tree.flatAt, Bool.and_eq_true, beq_iff_eq] at hflat
    obtain ⟨hcc, hg⟩ := hflat
    have hsz : Tree.size (Tree.node g) = 1 + Forest.size g := rfl
    match fuel, hfu with
    | 0, hfu =>
      rw [hsz] at hfu
      exact absurd hfu (by omega)
    | fu + 1, hfu =>
      have hfu2 : Forest.size g ≤ fu := by rw [hsz] at hfu; omega
      have hrec := iterSteps_evalNode_flat cc func g (p + 1) fu buf hg hfu2
      simp only [evalNode, recursiveTraversal, hcc, hrec, List.take_left,
        List.drop_left]
      rw [hsz]
      simp only [Tree.evalAt]
      have : p + 1 + Forest.size g = p + (1 + Forest.size g) := by omega
      rw [this]

/-- Central correctness lemma, children-loop form: iterating the lambda over
a flattened forest appends the children's values, in order. -/
theorem iterSteps_evalNode_flat {V : Type} (cc : Nat → Nat)
    (func : Nat → List V → V) :
    ∀ (g : Forest) (p fuel : Nat) (buf : List V),
      Forest.flatAt cc p g = true → Forest.size g ≤ fuel →
      iterSteps (evalNode cc func fuel) (Forest.length g) p buf
        = some (p + Forest.size g, buf ++ Forest.evalsAt func p g)
  | .nil, p, fuel, buf => by
    intro _ _
    simp [iterSteps, Forest.length, Forest.size, Forest.evalsAt]
  | .cons t g, p, fuel, buf => by
    intro hflat hfu
    simp only [Forest.flatAt, Bool.and_eq_true] at hflat
    obtain ⟨ht, hg⟩ := hflat
    simp only [Forest.size] at hfu
    have h1 := evalNode_flat cc func t p fuel buf ht (by omega)
    have h2 := iterSteps_evalNode_flat cc func g (p + Tree.size t) fuel
      (buf ++ [Tree.evalAt func p t]) hg (by omega)
    simp only [Forest.length, iterSteps, h1, h2, Forest.size, Forest.evalsAt]
    simp [List.append_assoc, Nat.add_assoc]

end

mutual

/-- Correctness lemma of the Ancestor-Stack Walk, node form: the lambda on a
tree flattened at `p` ends right past the subtree, restores the `ancestors`
stack, and appends one visitor invocation per node, each receiving the
root-first ancestor chain of that node on top of the surrounding stack. -/
theorem ancNode_flat (cc : Nat → Nat) :
    ∀ (t : Tree) (p fuel : Nat) (anc : List Nat) (calls : List (List Nat)),
      Tree.flatAt cc p t = true → Tree.size t ≤ fuel →
      ancNode cc fuel p (anc, calls)
        = some (p + Tree.size t, (anc, calls ++ Tree.paths anc p t))
  | .node g, p, fuel, anc, calls => by
    intro hflat hfu
    simp only [Tree.flatAt, Bool.and_eq_true, beq_iff_eq] at hflat
    obtain ⟨hcc, hg⟩ := hflat
    have hsz : Tree.size (Tree.node g) = 1 + Forest.size g := rfl
    match fuel, hfu with
    | 0, hfu =>
      rw [hsz] at hfu
      exact absurd hfu (by omega)
    | fu + 1, hfu =>
      have hfu2 : Forest.size g ≤ fu := by rw [hsz] at hfu; omega
      have hrec := iterSteps_ancNode_flat cc g (p + 1) fu (anc ++ [p])
        (calls ++ [anc ++ [p]]) hg hfu2
      simp only [ancNode, recursiveTraversal, hcc, hrec, List.dropLast_concat]
      rw [hsz]
      simp only [Tree.paths]
      have : p + 1 + Forest.size g = p + (1 + Forest.size g) := by omega
      rw [this, List.append_assoc]
      rfl

/-- Correctness lemma of the Ancestor-Stack Walk, children-loop form. -/
theorem iterSteps_ancNode_flat (cc : Nat → Nat) :
    ∀ (g : Forest) (p fuel : Nat) (anc : List Nat) (calls : List (List Nat)),
      Forest.flatAt cc p g = true → Forest.size g ≤ fuel →
      iterSteps (ancNode cc fuel) (Forest.length g) p (anc, calls)
        = some (p + Forest.size g, (anc, calls ++ Forest.paths anc p g))
  | .nil, p, fuel, anc, calls => by
    intro _ _
    simp [iterSteps, Forest.length, Forest.size, Forest.paths]
  | .cons t g, p, fuel, anc, calls => by
    intro hflat hfu
    simp only [Forest.flatAt, Bool.and_eq_true] at hflat
    obtain ⟨ht, hg⟩ := hflat
    simp only [Forest.size] at hfu
    have h1 := ancNode_flat cc t p fuel anc calls ht (by omega)
    have h2 := iterSteps_ancNode_flat cc g (p + Tree.size t) fuel anc
      (calls ++ Tree.paths anc p t) hg (by omega)
    simp only [Forest.length, iterSteps, h1, h2, Forest.size, Forest.paths]
    simp [List.append_assoc, Nat.add_assoc]

end

/-- The Ancestor-Stack Walk on a tree flattened at `p`: it returns the
handle right past the subtree and performs exactly the visitor invocations
`Tree.paths [] p t`, i.e. one per node in preorder, each receiving the
root-first ancestor chain ending at that node. -/
theorem ancestorsTraversal_flat (cc : Nat → Nat) (fuel p : Nat) (t : Tree)
    (hflat : Tree.flatAt cc p t = true) (hfu : Tree.size t ≤ fuel) :
    ancestorsTraversal cc fuel p = some (p + Tree.size t, Tree.paths [] p t) := by
  match t, hflat with
  | .node g, hflat =>
    simp only [Tree.flatAt, Bool.and_eq_true, beq_iff_eq] at hflat
    obtain ⟨hcc, hg⟩ := hflat
    have hsz : Tree.size (Tree.node g) = 1 + Forest.size g := rfl
    have hfu2 : Forest.size g ≤ fuel := by rw [hsz] at hfu; omega
    have hrec := iterSteps_ancNode_flat cc g (p + 1) fuel [p] [[p]] hg hfu2
    simp only [ancestorsTraversal, recursiveTraversal, hcc, hrec]
    rw [hsz]
    simp only [Tree.paths, List.nil_append]
    have : p + 1 + Forest.size g = p + (1 + Forest.size g) := by omega
    rw [this]
    rfl

mutual

/-- One visitor invocation per node: the walk over a tree produces as many
snapshots as the subtree has entries. -/
theorem Tree.paths_length : ∀ (t : Tree) (anc : List Nat) (p : Nat),
    (Tree.paths anc p t).length = Tree.size t
  | .node g, anc, p => by
    have ih := Forest.paths_length_forest g (anc ++ [p]) (p + 1)
    simp [Tree.paths, Tree.size, ih, Nat.add_comm]

/-- Snapshot count over a forest. -/
theorem Forest.paths_length_forest : ∀ (g : Forest) (anc : List Nat) (p : Nat),
    (Forest.paths anc p g).length = Forest.size g
  | .nil, _, _ => rfl
  | .cons t g, anc, p => by
    have ih1 := Tree.paths_length t anc p
    have ih2 := Forest.paths_length_forest g anc (p + Tree.size t)
    simp [Forest.paths, Forest.size, ih1, ih2]

end

mutual

/-- Stack depth at each invocation: over a stack already holding
`anc.length` ancestors, each snapshot's length is the node's depth counted
from `anc.length + 1` at the walk's root. -/
theorem Tree.paths_map_length : ∀ (t : Tree) (anc : List Nat) (p : Nat),
    (Tree.paths anc p t).map List.length = Tree.depthList (anc.length + 1) t
  | .node g, anc, p => by
    have ih := Forest.paths_map_length_forest g (anc ++ [p]) (p + 1)
    simp only [Tree.paths, Tree.depthList, List.map_cons, ih]
    simp

/-- Stack depths over a forest. -/
theorem Forest.paths_map_length_forest : ∀ (g : Forest) (anc : List Nat) (p : Nat),
    (Forest.paths anc p g).map List.length = Forest.depthList (anc.length + 1) g
  | .nil, _, _ => rfl
  | .cons t g, anc, p => by
    have ih1 := Tree.paths_map_length t anc p
    have ih2 := Forest.paths_map_length_forest g anc (p + Tree.size t)
    simp [Forest.paths, Forest.depthList, ih1, ih2]

end

mutual

/-- Each snapshot ends with the node being visited, and the snapshots are in
preorder: their last elements are exactly the preorder node positions. -/
theorem Tree.paths_getLast : ∀ (t : Tree) (anc : List Nat) (p : Nat),
    (Tree.paths anc p t).map (fun l => l.getLastD 0)
      = (Tree.nodesAt p t).map Prod.fst
  | .node g, anc, p => by
    have ih := Forest.paths_getLast_forest g (anc ++ [p]) (p + 1)
    simp only [Tree.paths, Tree.nodesAt, List.map_cons, ih, List.getLastD_concat]

/-- Last elements of the snapshots over a forest. -/
theorem Forest.paths_getLast_forest : ∀ (g : Forest) (anc : List Nat) (p : Nat),
    (Forest.paths anc p g).map (fun l => l.getLastD 0)
      = (Forest.nodesAt p g).map Prod.fst
  | .nil, _, _ => rfl
  | .cons t g, anc, p => by
    have ih1 := Tree.paths_getLast t anc p
    have ih2 := Forest.paths_getLast_forest g anc (p + Tree.size t)
    simp only [Forest.paths, Forest.nodesAt, List.map_append, ih1, ih2]

end

mutual

/-- Every node of a flattened tree is itself flattened at its position. -/
theorem Tree.flatAt_of_mem_nodesAt (cc : Nat → Nat) :
    ∀ (t : Tree) (p q : Nat) (t' : Tree),
      Tree.flatAt cc p t = true → (q, t') ∈ Tree.nodesAt p t →
      Tree.flatAt cc q t' = true
  | .node g, p, q, t' => by
    intro hflat hmem
    simp only [Tree.nodesAt, List.mem_cons] at hmem
    rcases hmem with h | h
    · rw [Prod.mk.injEq] at h
      obtain ⟨rfl, rfl⟩ := h
      exact hflat
    · have hg : Forest.flatAt cc (p + 1) g = true := by
        simp only [Tree.flatAt, Bool.and_eq_true] at hflat
        exact hflat.2
      exact Forest.flatAt_of_mem_nodesAt_forest cc g (p + 1) q t' hg h

/-- Every node of a flattened forest is flattened at its position. -/
theorem Forest.flatAt_of_mem_nodesAt_forest (cc : Nat → Nat) :
    ∀ (g : Forest) (p q : Nat) (t' : Tree),
      Forest.flatAt cc p g = true → (q, t') ∈ Forest.nodesAt p g →
      Tree.flatAt cc q t' = true
  | .nil, p, q, t' => by
    intro _ h
    simp [Forest.nodesAt] at h
  | .cons t g, p, q, t' => by
    intro hflat hmem
    simp only [Forest.nodesAt, List.mem_append] at hmem
    simp only [Forest.flatAt, Bool.and_eq_true] at hflat
    rcases hmem with h | h
    · exact Tree.flatAt_of_mem_nodesAt cc t p q t' hflat.1 h
    · exact Forest.flatAt_of_mem_nodesAt_forest cc g (p + Tree.size t) q t' hflat.2 h

end

/-- The Evaluation Fold computes one value per tree of a forest. -/
theorem Forest.evalsAt_length {V : Type} (func : Nat → List V → V) :
    ∀ (g : Forest) (p : Nat), (Forest.evalsAt func p g).length = Forest.length g
  | .nil, _ => rfl
  | .cons t g, p => by
    have ih := Forest.evalsAt_length func g (p + Tree.size t)
    simp [Forest.evalsAt, Forest.length, ih]

/-- A node's specification-level value is the evaluator applied to the
node's handle and its children's values. -/
theorem Tree.evalAt_eq {V : Type} (func : Nat → List V → V) :
    ∀ (t : Tree) (p : Nat),
      Tree.evalAt func p t
        = func p (Forest.evalsAt func (p + 1) (Tree.children t))
  | .node _, _ => rfl

/-- Entry count of a tree in terms of its children. -/
theorem Tree.size_children :
    ∀ t : Tree, Tree.size t = 1 + Forest.size (Tree.children t)
  | .node _ => rfl

/-- Unfolding of flattenedness at a node. -/
theorem Tree.flatAt_unfold (cc : Nat → Nat) :
    ∀ (t : Tree) (p : Nat), Tree.flatAt cc p t = true →
      cc p = Forest.length (Tree.children t)
      ∧ Forest.flatAt cc (p + 1) (Tree.children t) = true
  | .node g, p, h => by
    simp only [Tree.flatAt, Bool.and_eq_true, beq_iff_eq] at h
    exact ⟨h.1, h.2⟩

/-- The Evaluation Fold on a tree flattened at `p`: it returns the root's
specification-level value together with the handle right past the subtree. -/
theorem evaluationTraversal_flat {V : Type} (cc : Nat → Nat)
    (func : Nat → List V → V) (fuel p : Nat) (t : Tree)
    (hflat : Tree.flatAt cc p t = true) (hfu : Tree.size t ≤ fuel) :
    evaluationTraversal cc func fuel p
      = some (Tree.evalAt func p t, p + Tree.size t) := by
  match t, hflat with
  | .node g, hflat =>
    simp only [Tree.flatAt, Bool.and_eq_true, beq_iff_eq] at hflat
    obtain ⟨hcc, hg⟩ := hflat
    have hsz : Tree.size (Tree.node g) = 1 + Forest.size g := rfl
    have hfu2 : Forest.size g ≤ fuel := by rw [hsz] at hfu; omega
    have hrec := iterSteps_evalNode_flat cc func g (p + 1) fuel [] hg hfu2
    simp only [evaluationTraversal, recursiveTraversal, hcc, hrec]
    rw [hsz]
    simp only [Tree.evalAt, List.nil_append]
    have : p + 1 + Forest.size g = p + (1 + Forest.size g) := by omega
    rw [this]

/-- The value buffer at the moment the Evaluation Fold's final evaluator
call runs: exactly the root's children's values, in order. -/
theorem evaluationTraversalFinalBuf_flat {V : Type} (cc : Nat → Nat)
    (func : Nat → List V → V) (fuel p : Nat) (t : Tree)
    (hflat : Tree.flatAt cc p t = true) (hfu : Tree.size t ≤ fuel) :
    evaluationTraversalFinalBuf cc func fuel p
      = some (Forest.evalsAt func (p + 1) (Tree.children t)) := by
  match t, hflat with
  | .node g, hflat =>
    simp only [Tree.flatAt, Bool.and_eq_true, beq_iff_eq] at hflat
    obtain ⟨hcc, hg⟩ := hflat
    have hsz : Tree.size (Tree.node g) = 1 + Forest.size g := rfl
    have hfu2 : Forest.size g ≤ fuel := by rw [hsz] at hfu; omega
    have hrec := iterSteps_evalNode_flat cc func g (p + 1) fuel [] hg hfu2
    simp only [evaluationTraversalFinalBuf, recursiveTraversal, hcc, hrec]
    simp [Tree.children]

/-- C1: for every well-formed flattened preorder tree and every evaluator,
`evaluationTraversal` computes, for every node in the tree (not only the
root), a value equal to the evaluator applied to that node's handle and the
list of its immediate children's already-computed values in left-to-right
order, and the first component of the returned pair is the value computed
for the root. -/
theorem claim_C1 {V : Type} (cc : Nat → Nat) (func : Nat → List V → V)
    (fuel p : Nat) (t : Tree)
    (hflat : Tree.flatAt cc p t = true) (hfu : Tree.size t ≤ fuel) :
    evaluationTraversal cc func fuel p
      = some (Tree.evalAt func p t, p + Tree.size t)
    ∧ Tree.evalAt func p t
        = func p (Forest.evalsAt func (p + 1) (Tree.children t))
    ∧ ∀ q t', (q, t') ∈ Tree.nodesAt p t → ∀ (buf : List V) (fu : Nat),
        Tree.size t' ≤ fu →
        evalNode cc func fu q buf
          = some (q + Tree.size t',
              buf ++ [func q (Forest.evalsAt func (q + 1) (Tree.children t'))]) := by
  refine ⟨evaluationTraversal_flat cc func fuel p t hflat hfu,
    Tree.evalAt_eq func t p, ?_⟩
  intro q t' hmem buf fu hfu2
  have hq : Tree.flatAt cc q t' = true :=
    Tree.flatAt_of_mem_nodesAt cc t p q t' hflat hmem
  have h := evalNode_flat cc func t' q fu buf hq hfu2
  rwa [Tree.evalAt_eq] at h

/-- Witness for C1 at the fixture: the fold returns 1500 for the root, and
the inner directory node at handle 2 computes 1200 = its children's values
800 + 400, appended to the buffer. -/
theorem claim_C1_witness :
    evaluationTraversal fixtureCC fixtureEvalN 7 0 = some (1500, 7)
    ∧ evalNode fixtureCC fixtureEvalN 4 2 [100] = some (6, [100, 1200]) := by
  have h := claim_C1 fixtureCC fixtureEvalN 7 0 fixtureTree (by decide) (by decide)
  refine ⟨h.1, ?_⟩
  exact h.2.2 2
    (Tree.node (Forest.cons (Tree.node (Forest.cons leaf Forest.nil))
      (Forest.cons leaf Forest.nil)))
    (by decide) [100] 4 (by decide)

/-- C2: for every well-formed flattened preorder tree and node handle `p`,
`recursiveTraversal(p, f)` invokes its callback exactly `childCount p`
times, once per immediate child in sequence order (the logged invocation
handles are exactly the children's positions), and — when each callback
invocation consumes exactly its child's subtree, as the canonical recursive
visitor does — the handle it returns equals `getNextSibling p`. -/
theorem claim_C2 (cc vis : Nat → Nat) (fuel p : Nat) (t : Tree)
    (hflat : Tree.flatAt cc p t = true)
    (hcons : consumesForest vis (p + 1) (Tree.children t) = true)
    (hfu : Tree.size t ≤ fuel) :
    recursiveTraversal cc (pureStep vis) p []
      = some (p + Tree.size t, Forest.positions (p + 1) (Tree.children t))
    ∧ (Forest.positions (p + 1) (Tree.children t)).length = cc p
    ∧ getNextSibling cc fuel p = some (p + Tree.size t) := by
  obtain ⟨hcc, hg⟩ := Tree.flatAt_unfold cc t p hflat
  have h1 := iterSteps_pureStep vis (Tree.children t) (p + 1) [] hcons
  refine ⟨?_, ?_, getNextSibling_flat cc fuel p t hflat hfu⟩
  · simp only [recursiveTraversal, hcc, h1, List.nil_append, Tree.size_children t]
    simp [Nat.add_assoc]
  · rw [Forest.positions_length, hcc]

/-- Witness for C2 at the fixture with the canonical subtree-consuming
callback: three invocations, at the root's children 1, 2, 6, returning the
end handle 7, which is what `getNextSibling` returns on the root. -/
theorem claim_C2_witness :
    recursiveTraversal fixtureCC
        (pureStep (fun q => [0, 2, 6, 0, 0, 0, 7].getD q 0)) 0 []
      = some (7, [1, 2, 6])
    ∧ getNextSibling fixtureCC 7 0 = some 7 := by
  have h := claim_C2 fixtureCC (fun q => [0, 2, 6, 0, 0, 0, 7].getD q 0) 7 0
    fixtureTree (by decide) (by decide) (by decide)
  exact ⟨h.1, h.2.2⟩

/-- C3: for every well-formed flattened preorder tree, `getNextSibling`
applied to a node's handle returns the handle of the first entry after the
node's entire subtree (`p + size`, its next sibling or the end-of-sequence
handle); in particular, on every node with child count 0 it returns
`handle + 1`. -/
theorem claim_C3 (cc : Nat → Nat) (fuel p : Nat) (t : Tree)
    (hflat : Tree.flatAt cc p t = true) (hfu : Tree.size t ≤ fuel) :
    getNextSibling cc fuel p = some (p + Tree.size t)
    ∧ ∀ q : Nat, cc q = 0 → getNextSibling cc fuel q = some (q + 1) := by
  refine ⟨getNextSibling_flat cc fuel p t hflat hfu, ?_⟩
  intro q hq
  have h1 : Tree.flatAt cc q leaf = true := by
    simp [leaf, Tree.flatAt, Forest.flatAt, Forest.length, hq]
  have h2 := getNextSibling_flat cc fuel q leaf h1 (by
    have := Tree.size_pos t
    simp only [leaf, Tree.size, Forest.size]
    omega)
  simpa [leaf, Tree.size, Forest.size] using h2

/-- Witness for C3 at the fixture: skipping the whole tree from the root
gives 7, and skipping the leaf at handle 1 gives 2. -/
theorem claim_C3_witness :
    getNextSibling fixtureCC 7 0 = some 7
    ∧ getNextSibling fixtureCC 7 1 = some 2 := by
  have h := claim_C3 fixtureCC 7 0 fixtureTree (by decide) (by decide)
  exact ⟨h.1, h.2 1 (by decide)⟩

/-- C4 (amended): during `evaluationTraversal`, every non-root node's
processing has net effect of increasing the value buffer's length by
exactly one, regardless of arity: its evaluator receives a contiguous
window at the buffer's tail holding exactly `childCount` values (the
children phase appends exactly those values), the window's values are
removed and one replacement value is pushed.  The root's evaluator is
likewise invoked with the tail window of exactly `childCount root` values —
here the whole buffer — but its result is returned as the first component
of the pair instead of being pushed onto the buffer. -/
theorem claim_C4 {V : Type} (cc : Nat → Nat) (func : Nat → List V → V)
    (fuel p : Nat) (t : Tree)
    (hflat : Tree.flatAt cc p t = true) (hfu : Tree.size t ≤ fuel) :
    (∀ q t', (q, t') ∈ Forest.nodesAt (p + 1) (Tree.children t) →
      ∀ (buf : List V) (fu : Nat), Tree.size t' ≤ fu + 1 →
        (Forest.evalsAt func (q + 1) (Tree.children t')).length = cc q
        ∧ recursiveTraversal cc (evalNode cc func fu) q buf
            = some (q + Tree.size t',
                buf ++ Forest.evalsAt func (q + 1) (Tree.children t'))
        ∧ evalNode cc func (fu + 1) q buf
            = some (q + Tree.size t',
                buf ++ [func q (Forest.evalsAt func (q + 1) (Tree.children t'))]))
    ∧ (Forest.evalsAt func (p + 1) (Tree.children t)).length = cc p
    ∧ evaluationTraversalFinalBuf cc func fuel p
        = some (Forest.evalsAt func (p + 1) (Tree.children t))
    ∧ evaluationTraversal cc func fuel p
        = some (func p (Forest.evalsAt func (p + 1) (Tree.children t)),
            p + Tree.size t) := by
  obtain ⟨hcc, hg⟩ := Tree.flatAt_unfold cc t p hflat
  refine ⟨?_, ?_, evaluationTraversalFinalBuf_flat cc func fuel p t hflat hfu, ?_⟩
  · intro q t' hmem buf fu hfu2
    have hq : Tree.flatAt cc q t' = true :=
      Forest.flatAt_of_mem_nodesAt_forest cc (Tree.children t) (p + 1) q t' hg hmem
    obtain ⟨hqc, hqg⟩ := Tree.flatAt_unfold cc t' q hq
    have hsz := Tree.size_children t'
    refine ⟨?_, ?_, ?_⟩
    · rw [Forest.evalsAt_length, hqc]
    · have h2 := iterSteps_evalNode_flat cc func (Tree.children t') (q + 1) fu buf
        hqg (by omega)
      simp only [recursiveTraversal, hqc, h2, hsz]
      simp [Nat.add_assoc]
    · have h3 := evalNode_flat cc func t' q (fu + 1) buf hq hfu2
      rwa [Tree.evalAt_eq] at h3
  · rw [Forest.evalsAt_length, hcc]
  · have h4 := evaluationTraversal_flat cc func fuel p t hflat hfu
    rwa [Tree.evalAt_eq] at h4

/-- Witness for C4 at the fixture: the leaf at handle 1 turns buffer `[]`
into `[100]` (net +1, empty tail window), and the buffer at the root's
final evaluation holds the root's three children's values. -/
theorem claim_C4_witness :
    evalNode fixtureCC fixtureEvalN 1 1 [] = some (2, [100])
    ∧ evaluationTraversalFinalBuf fixtureCC fixtureEvalN 7 0
        = some [100, 1200, 200] := by
  have h := claim_C4 fixtureCC fixtureEvalN 7 0 fixtureTree (by decide) (by decide)
  exact ⟨(h.1 1 leaf (by decide) [] 0 (by decide)).2.2, h.2.2.1⟩

/-- Counterexample to C4 as stated ("… exactly one replacement value
representing the node is pushed.  This holds for every node of the tree,
the root included"): at the fixture, the buffer at the moment the function
returns still holds the root's three children's values — the root's
replacement value is never pushed, so the root's processing does not end
with the single pushed value the claim requires. -/
theorem claim_C4_counterexample :
    evaluationTraversalFinalBuf fixtureCC fixtureEvalN 7 0
      = some [100, 1200, 200]
    ∧ (evaluationTraversalFinalBuf fixtureCC fixtureEvalN 7 0).map List.length
        ≠ some 1 :=
  ⟨rfl, by decide⟩

/-- C5: for every well-formed flattened preorder tree, `ancestorsTraversal`
invokes its visitor exactly once per node of the subtree, in depth-first
preorder, each invocation receiving the root-first ancestor view ending
with the current node, whose length equals the node's depth (root depth
1). -/
theorem claim_C5 (cc : Nat → Nat) (fuel p : Nat) (t : Tree)
    (hflat : Tree.flatAt cc p t = true) (hfu : Tree.size t ≤ fuel) :
    ancestorsTraversal cc fuel p = some (p + Tree.size t, Tree.paths [] p t)
    ∧ (Tree.paths [] p t).length = Tree.size t
    ∧ (Tree.paths [] p t).map (fun l => l.getLastD 0)
        = (Tree.nodesAt p t).map Prod.fst
    ∧ (Tree.paths [] p t).map List.length = Tree.depthList 1 t := by
  refine ⟨ancestorsTraversal_flat cc fuel p t hflat hfu,
    Tree.paths_length t [] p, Tree.paths_getLast t [] p, ?_⟩
  simpa using Tree.paths_map_length t [] p

/-- Witness for C5 at the fixture: seven invocations, one per node in
preorder, with the expected ancestor chains. -/
theorem claim_C5_witness :
    ancestorsTraversal fixtureCC 7 0
      = some (7, [[0], [0, 1], [0, 2], [0, 2, 3], [0, 2, 3, 4], [0, 2, 5], [0, 6]]) :=
  (claim_C5 fixtureCC 7 0 fixtureTree (by decide) (by decide)).1

/-- C6: for every well-formed flattened preorder tree, the loop of
`getNextSibling` terminates, and the number of advance-by-one steps it
takes equals the number of entries of the start node's subtree: with fuel
for exactly `size` iterations it finishes one past the subtree, with any
less it has not finished; applied to the root of a tree flattened at 0 it
returns the end-of-sequence handle `size`. -/
theorem claim_C6 (cc : Nat → Nat) (p fuel : Nat) (t : Tree)
    (hflat : Tree.flatAt cc p t = true) :
    getNextSibling cc (Tree.size t) p = some (p + Tree.size t)
    ∧ (fuel < Tree.size t → getNextSibling cc fuel p = none)
    ∧ (p = 0 → getNextSibling cc (Tree.size t) 0 = some (Tree.size t)) := by
  refine ⟨getNextSibling_flat cc (Tree.size t) p t hflat (Nat.le_refl _), ?_, ?_⟩
  · intro h
    exact getNextSibling_flat_none cc fuel p t hflat h
  · intro h
    subst h
    simpa using getNextSibling_flat cc (Tree.size t) 0 t hflat (Nat.le_refl _)

/-- Witness for C6 at the fixture: 7 iterations finish at the
end-of-sequence handle 7, 6 iterations do not finish. -/
theorem claim_C6_witness :
    getNextSibling fixtureCC 7 0 = some 7
    ∧ getNextSibling fixtureCC 6 0 = none := by
  have h := claim_C6 fixtureCC 0 6 fixtureTree (by decide)
  exact ⟨h.1, h.2.1 (by decide)⟩

/-- C7: if the root passed to `evaluationTraversal` is itself a leaf (child
count 0), the evaluator is invoked once, with the root's handle and the
empty child-value window (the buffer stays empty, so begin equals end), and
that invocation's result is returned as the computed value. -/
theorem claim_C7 {V : Type} (cc : Nat → Nat) (func : Nat → List V → V)
    (fuel p : Nat) (hleaf : cc p = 0) :
    evaluationTraversal cc func fuel p = some (func p [], p + 1)
    ∧ evaluationTraversalFinalBuf cc func fuel p = some [] := by
  constructor
  · simp [evaluationTraversal, recursiveTraversal, hleaf, iterSteps]
  · simp [evaluationTraversalFinalBuf, recursiveTraversal, hleaf, iterSteps]

/-- Witness for C7: a one-node tree whose evaluator records the window's
length; the result is the evaluator's value on the empty window. -/
theorem claim_C7_witness :
    evaluationTraversal (fun _ => 0) (fun q w => q + w.length) 0 5
      = some (5, 6) := by
  have h := claim_C7 (fun _ => 0) (fun q w => q + w.length) 0 5 rfl
  exact h.1

/-- C8: for the fixture tree `Directory(3){File(100), Directory(2){
Directory(1){File(800)}, File(400)}, File(200)}`, the bottom-up Evaluation
Fold in which a File contributes its size and a Directory sums its
children's values yields 1500 at the root. -/
theorem claim_C8 :
    evaluationTraversal fixtureCC fixtureEvalN 7 0 = some (1500, 7) := rfl

/-- C9: for every well-formed flattened preorder tree, the second component
of the pair returned by `evaluationTraversal` equals `getNextSibling`
applied to the root handle, the handle just past the root's entire
subtree. -/
theorem claim_C9 {V : Type} (cc : Nat → Nat) (func : Nat → List V → V)
    (fuel p : Nat) (t : Tree)
    (hflat : Tree.flatAt cc p t = true) (hfu : Tree.size t ≤ fuel) :
    (evaluationTraversal cc func fuel p).map Prod.snd
      = getNextSibling cc fuel p
    ∧ getNextSibling cc fuel p = some (p + Tree.size t) := by
  have h1 := evaluationTraversal_flat cc func fuel p t hflat hfu
  have h2 := getNextSibling_flat cc fuel p t hflat hfu
  rw [h1, h2]
  exact ⟨rfl, rfl⟩

/-- Witness for C9 at the fixture: both sides are `some 7`. -/
theorem claim_C9_witness :
    (evaluationTraversal fixtureCC fixtureEvalN 7 0).map Prod.snd
      = getNextSibling fixtureCC 7 0 :=
  (claim_C9 fixtureCC fixtureEvalN 7 0 fixtureTree (by decide) (by decide)).1

/-- C10: the result of `getNextSibling` depends only on the child counts of
the entries inside the node's own subtree: any two Child-Count Oracles
agreeing on every handle in the half-open range from the start handle to
the returned handle produce the same result, so the traversal never
consults the oracle at or past the returned position. -/
theorem claim_C10 (cc1 cc2 : Nat → Nat) (fuel n m : Nat)
    (h : getNextSibling cc1 fuel n = some m)
    (hagree : ∀ i, n ≤ i → i < m → cc1 i = cc2 i) :
    getNextSibling cc2 fuel n = some m :=
  getNextSiblingLoop_agree cc1 cc2 fuel n 1 m h hagree

/-- Witness for C10: oracles `[2,0,0]` and `[2,0,0,9]` agree below the
returned handle 3, so the skip is unchanged even though the second oracle
reports 9 children at the returned position. -/
theorem claim_C10_witness :
    getNextSibling (fun i => [2, 0, 0, 9].getD i 0) 3 0 = some 3 :=
  claim_C10 (fun i => [2, 0, 0].getD i 0) (fun i => [2, 0, 0, 9].getD i 0) 3 0 3
    (by decide) (fun i _ hi => by interval_cases i <;> rfl)

end TreeAlgorithms
